/-
Verification of the `lru::LRUCache` data structure from
`include/lru_cache/lru_cache.hpp`.

Shallow embedding: the C++ class holds
  * `capacity_ : std::size_t`
  * `items_   : std::list<std::pair<Key,Value>>`  (front = most recently used)
  * `lookup_  : std::unordered_map<Key, ListIterator>`
We model `items_` as a `List (Key × Value)` (front of the C++ list = head of
the Lean list) and `lookup_` by its key set, as a `List Key`: the map's value
at a key is the iterator of the unique list node holding that key, so an
iterator dereference is modelled as locating the first node with that key
(in well-formed states there is exactly one).  `std::size_t` values become
`Nat`; the throwing constructor becomes an `Except`.
-/
import Mathlib

set_option linter.unusedSectionVars false

namespace LRU

/-- The cache state: fixed capacity, recency list (head = most recently
used, last = least recently used) and the key set of the index map. -/
structure LRUCache (Key Value : Type) where
  capacity_ : Nat
  items_ : List (Key × Value)
  lookup_ : List Key

variable {Key Value : Type} [DecidableEq Key]

/-- Constructor `LRUCache(std::size_t capacity)` : stores `capacity` and
throws `std::invalid_argument` when `capacity == 0`. -/
def LRUCache.new (capacity : Nat) : Except String (LRUCache Key Value) :=
  if capacity = 0 then
    Except.error "lru cache capacity must be greater than 0"
  else
    Except.ok { capacity_ := capacity, items_ := [], lookup_ := [] }

/-- The node of the recency list designated by the index iterator for `key`:
the first (in well-formed states, the only) entry whose key is `key`. -/
def findNode (key : Key) (l : List (Key × Value)) : Option (Key × Value) :=
  l.find? (fun p => decide (p.1 = key))

/-- `move_to_front(it)` : `items_.splice(items_.begin(), items_, it)` —
relink the designated node to the head of the list. -/
def move_to_front (key : Key) (l : List (Key × Value)) : List (Key × Value) :=
  match findNode key l with
  | none => l
  | some p => p :: l.eraseP (fun q => decide (q.1 = key))

/-- `it->second->second = value` : overwrite the value stored in the node
designated by the iterator for `key`, leaving its position unchanged. -/
def update_value (key : Key) (v : Value) : List (Key × Value) → List (Key × Value)
  | [] => []
  | p :: rest => if p.1 = key then (p.1, v) :: rest else p :: update_value key v rest

/-- `get(key)` : if the key is absent return `nullopt`; otherwise move its
node to the front and return a copy of `items_.front().second`.
Returns the result together with the post-state. -/
def LRUCache.get (c : LRUCache Key Value) (key : Key) :
    Option Value × LRUCache Key Value :=
  if key ∈ c.lookup_ then
    let c' : LRUCache Key Value := { c with items_ := move_to_front key c.items_ }
    ((c'.items_.head?).map Prod.snd, c')
  else
    (none, c)

/-- `put(key, value)` : update-and-promote when the key exists; otherwise
evict the back node when `items_.size() >= capacity_`, then emplace the new
entry at the front and point the index at it.  (`items_.back()` on an empty
list is undefined behaviour in the source; the `none` branch of the match is
unreachable from any state with `capacity_ ≥ 1` and `size ≥ capacity_`.) -/
def LRUCache.put (c : LRUCache Key Value) (key : Key) (value : Value) :
    LRUCache Key Value :=
  if key ∈ c.lookup_ then
    { c with items_ := move_to_front key (update_value key value c.items_) }
  else
    let c1 : LRUCache Key Value :=
      if c.capacity_ ≤ c.items_.length then
        match c.items_.getLast? with
        | some lru =>
            { c with items_ := c.items_.dropLast,
                     lookup_ := c.lookup_.erase lru.1 }
        | none => c
      else c
    { c1 with items_ := (key, value) :: c1.items_,
              lookup_ := key :: c1.lookup_ }

/-- `size()` : `items_.size()`. -/
def LRUCache.size (c : LRUCache Key Value) : Nat :=
  c.items_.length

/-- `capacity()` : the stored `capacity_`. -/
def LRUCache.capacity (c : LRUCache Key Value) : Nat :=
  c.capacity_

/-- `empty()` : `items_.empty()`. -/
def LRUCache.empty (c : LRUCache Key Value) : Bool :=
  c.items_.isEmpty

/-- `contains(key)` : `lookup_.find(key) != lookup_.end()`. -/
def LRUCache.contains (c : LRUCache Key Value) (key : Key) : Bool :=
  decide (key ∈ c.lookup_)

/-- `erase(key)` : when present, erase the designated node from the list and
the key from the map, returning `true`; otherwise return `false`.
Returns the result together with the post-state. -/
def LRUCache.erase (c : LRUCache Key Value) (key : Key) :
    Bool × LRUCache Key Value :=
  if key ∈ c.lookup_ then
    (true, { c with items_ := c.items_.eraseP (fun q => decide (q.1 = key)),
                    lookup_ := c.lookup_.erase key })
  else
    (false, c)

/-- `clear()` : `items_.clear(); lookup_.clear()`. -/
def LRUCache.clear (c : LRUCache Key Value) : LRUCache Key Value :=
  { c with items_ := [], lookup_ := [] }

/-- One public operation of the cache (queries that cannot change the state
are represented explicitly so that frame properties can be stated). -/
inductive Op (Key Value : Type) where
  | putOp (k : Key) (v : Value)
  | getOp (k : Key)
  | eraseOp (k : Key)
  | clearOp
  | containsOp (k : Key)

/-- The state after executing one operation. -/
def step (c : LRUCache Key Value) : Op Key Value → LRUCache Key Value
  | Op.putOp k v => c.put k v
  | Op.getOp k => (c.get k).2
  | Op.eraseOp k => (c.erase k).2
  | Op.clearOp => c.clear
  | Op.containsOp _ => c

/-- The state after executing a sequence of operations. -/
def run (c : LRUCache Key Value) (ops : List (Op Key Value)) : LRUCache Key Value :=
  ops.foldl step c

/-- Folding `put` over a list of key-value pairs, first element first. -/
def putAll (c : LRUCache Key Value) (kvs : List (Key × Value)) : LRUCache Key Value :=
  kvs.foldl (fun c p => c.put p.1 p.2) c

/-- Well-formedness of a cache state: positive capacity, size within
capacity, no duplicate keys in the recency list, no duplicate keys in the
index, and the index key set equals the recency-list key set (invariants
I1, I2, I3 of the data model). -/
def WF (c : LRUCache Key Value) : Prop :=
  1 ≤ c.capacity_ ∧ c.items_.length ≤ c.capacity_ ∧
  (c.items_.map Prod.fst).Nodup ∧ c.lookup_.Nodup ∧
  (∀ k ∈ c.lookup_, k ∈ c.items_.map Prod.fst) ∧
  (∀ k ∈ c.items_.map Prod.fst, k ∈ c.lookup_)

instance (c : LRUCache Key Value) : Decidable (WF c) := by
  unfold WF
  infer_instance

omit [DecidableEq Key] in
theorem WF.mem_iff {c : LRUCache Key Value} (h : WF c) (k : Key) :
    k ∈ c.lookup_ ↔ k ∈ c.items_.map Prod.fst :=
  ⟨fun hk => h.2.2.2.2.1 k hk, fun hk => h.2.2.2.2.2 k hk⟩

/-! Decomposition of a list around the first occurrence of a key, and
computation of the list primitives on such a decomposition. -/

omit [DecidableEq Key] in
theorem exists_key_decomp (k : Key) :
    ∀ l : List (Key × Value), k ∈ l.map Prod.fst →
      ∃ v l₁ l₂, l = l₁ ++ (k, v) :: l₂ ∧ k ∉ l₁.map Prod.fst := by
  intro l
  induction l with
  | nil => intro h; simp at h
  | cons p rest ih =>
    intro h
    rcases p with ⟨a, b⟩
    by_cases ha : a = k
    · subst ha
      exact ⟨b, [], rest, by simp, by simp⟩
    · have hk : k ∈ rest.map Prod.fst := by
        simp only [List.map_cons, List.mem_cons] at h
        rcases h with h | h
        · exact absurd h.symm ha
        · exact h
      obtain ⟨v, l₁, l₂, hdec, hnot⟩ := ih hk
      refine ⟨v, (a, b) :: l₁, l₂, by simp [hdec], ?_⟩
      simp only [List.map_cons, List.mem_cons, not_or]
      exact ⟨fun hh => ha hh.symm, hnot⟩

theorem findNode_key_append {k : Key} {l₁ : List (Key × Value)}
    (h : k ∉ l₁.map Prod.fst) (v : Value) (l₂ : List (Key × Value)) :
    findNode k (l₁ ++ (k, v) :: l₂) = some (k, v) := by
  induction l₁ with
  | nil => simp [findNode]
  | cons p rest ih =>
    rcases p with ⟨a, b⟩
    simp only [List.map_cons, List.mem_cons, not_or] at h
    have ha : ¬(a = k) := fun hh => h.1 hh.symm
    have hrest := ih h.2
    unfold findNode at hrest ⊢
    simp [List.find?_cons, ha, hrest]

theorem eraseP_key_append {k : Key} {l₁ : List (Key × Value)}
    (h : k ∉ l₁.map Prod.fst) (v : Value) (l₂ : List (Key × Value)) :
    (l₁ ++ (k, v) :: l₂).eraseP (fun q => decide (q.1 = k)) = l₁ ++ l₂ := by
  induction l₁ with
  | nil => simp
  | cons p rest ih =>
    rcases p with ⟨a, b⟩
    simp only [List.map_cons, List.mem_cons, not_or] at h
    have ha : ¬(a = k) := fun hh => h.1 hh.symm
    simp [List.eraseP_cons, ha, ih h.2]

theorem move_to_front_key_append {k : Key} {l₁ : List (Key × Value)}
    (h : k ∉ l₁.map Prod.fst) (v : Value) (l₂ : List (Key × Value)) :
    move_to_front k (l₁ ++ (k, v) :: l₂) = (k, v) :: (l₁ ++ l₂) := by
  unfold move_to_front
  rw [findNode_key_append h, eraseP_key_append h]

theorem update_value_key_append (k : Key) (v : Value) {l₁ : List (Key × Value)}
    (h : k ∉ l₁.map Prod.fst) (v₀ : Value) (l₂ : List (Key × Value)) :
    update_value k v (l₁ ++ (k, v₀) :: l₂) = l₁ ++ (k, v) :: l₂ := by
  induction l₁ with
  | nil => simp [update_value]
  | cons p rest ih =>
    simp only [List.map_cons, List.mem_cons, not_or] at h
    have h1 : ¬(p.1 = k) := fun hh => h.1 hh.symm
    simpa [update_value, h1] using ih h.2

/-! Characterization of each branch of `put`. -/

/-- Update branch of `put` (key already present): the entry keeps its key,
gets the new value, and is relinked to the front; the index and capacity do
not change. -/
theorem put_present (c : LRUCache Key Value) (k : Key) (v : Value)
    (hWF : WF c) (hk : k ∈ c.lookup_) :
    ∃ v₀ l₁ l₂, c.items_ = l₁ ++ (k, v₀) :: l₂ ∧ k ∉ l₁.map Prod.fst ∧
      c.put k v = { c with items_ := (k, v) :: (l₁ ++ l₂) } := by
  have hkm := (hWF.mem_iff k).1 hk
  obtain ⟨v₀, l₁, l₂, hdec, hnot⟩ := exists_key_decomp k c.items_ hkm
  refine ⟨v₀, l₁, l₂, hdec, hnot, ?_⟩
  unfold LRUCache.put
  rw [if_pos hk, hdec, update_value_key_append k v hnot v₀ l₂,
    move_to_front_key_append hnot v l₂]

/-- Insert branch of `put` with spare room: push the new entry at the front
of both structures. -/
theorem put_absent_spare (c : LRUCache Key Value) (k : Key) (v : Value)
    (hk : k ∉ c.lookup_) (hlt : c.items_.length < c.capacity_) :
    c.put k v = { c with items_ := (k, v) :: c.items_,
                         lookup_ := k :: c.lookup_ } := by
  unfold LRUCache.put
  rw [if_neg hk, if_neg (by omega)]

/-- Evicting branch of `put`: the back entry of the recency list is removed
from both structures before the new entry is pushed at the front. -/
theorem put_absent_at_cap (c : LRUCache Key Value) (k : Key) (v : Value)
    (hk : k ∉ c.lookup_) (hge : c.capacity_ ≤ c.items_.length)
    (hne : c.items_ ≠ []) :
    ∃ lru, c.items_.getLast? = some lru ∧
      c.put k v = { c with items_ := (k, v) :: c.items_.dropLast,
                           lookup_ := k :: c.lookup_.erase lru.1 } := by
  refine ⟨c.items_.getLast hne, List.getLast?_eq_getLast c.items_ hne, ?_⟩
  unfold LRUCache.put
  rw [if_neg hk, if_pos hge, List.getLast?_eq_getLast c.items_ hne]

/-- Items after `put` of an absent key, both branches at once: the new entry
is pushed at the front and the list is truncated to the capacity. -/
theorem put_absent_items (c : LRUCache Key Value) (k : Key) (v : Value)
    (hWF : WF c) (hk : k ∉ c.lookup_) :
    (c.put k v).items_ = List.take c.capacity_ ((k, v) :: c.items_) := by
  by_cases hge : c.capacity_ ≤ c.items_.length
  · have hlen : c.items_.length = c.capacity_ := le_antisymm hWF.2.1 hge
    have hpos : 1 ≤ c.capacity_ := hWF.1
    have hne : c.items_ ≠ [] := by
      intro h
      rw [h] at hlen
      simp at hlen
      omega
    obtain ⟨lru, _, heq⟩ := put_absent_at_cap c k v hk hge hne
    rw [heq]
    have hcap1 : c.capacity_ = (c.items_.length - 1) + 1 := by omega
    show (k, v) :: c.items_.dropLast = List.take c.capacity_ ((k, v) :: c.items_)
    rw [hcap1, List.take_succ_cons, List.dropLast_eq_take]
  · rw [put_absent_spare c k v hk (by omega)]
    simp only
    rw [List.take_of_length_le]
    simp only [List.length_cons]
    omega

/-! Preservation of well-formedness by every operation. -/

theorem getLast?_decomp {α : Type} {l : List α} {a : α} (h : l.getLast? = some a) :
    l = l.dropLast ++ [a] := by
  have hne : l ≠ [] := by
    intro h0
    rw [h0] at h
    simp at h
  rw [List.getLast?_eq_getLast l hne, Option.some_inj] at h
  rw [← h]
  exact (List.dropLast_append_getLast hne).symm

omit [DecidableEq Key] in
theorem mem_map_fst_of_decomp {k : Key} {l₁ l₂ : List (Key × Value)} {v : Value}
    (hnd : ((l₁ ++ (k, v) :: l₂).map Prod.fst).Nodup) (k' : Key) :
    k' ∈ (l₁ ++ l₂).map Prod.fst ↔
      k' ≠ k ∧ k' ∈ (l₁ ++ (k, v) :: l₂).map Prod.fst := by
  have hperm : ((l₁ ++ (k, v) :: l₂).map Prod.fst).Perm
      (k :: (l₁ ++ l₂).map Prod.fst) := by
    simp only [List.map_append, List.map_cons]
    exact List.perm_middle
  have hnd' : (k :: (l₁ ++ l₂).map Prod.fst).Nodup := hperm.nodup_iff.1 hnd
  have hknot : k ∉ (l₁ ++ l₂).map Prod.fst := by
    intro hkk
    exact (List.nodup_cons.1 hnd').1 hkk
  constructor
  · intro hk'
    refine ⟨fun he => hknot (he ▸ hk'), ?_⟩
    rw [hperm.mem_iff]
    exact List.mem_cons_of_mem _ hk'
  · rintro ⟨hne, hk'⟩
    rw [hperm.mem_iff] at hk'
    rcases List.mem_cons.1 hk' with h | h
    · exact absurd h hne
    · exact h

/-- Replacing the recency list by one with the same multiset of keys keeps
the state well-formed. -/
theorem wf_replace_items (c : LRUCache Key Value) (l : List (Key × Value))
    (hperm : (l.map Prod.fst).Perm (c.items_.map Prod.fst)) (h : WF c) :
    WF { c with items_ := l } := by
  have hlen : l.length = c.items_.length := by
    have := hperm.length_eq
    simpa using this
  refine ⟨h.1, ?_, hperm.nodup_iff.2 h.2.2.1, h.2.2.2.1, ?_, ?_⟩
  · show l.length ≤ c.capacity_
    rw [hlen]
    exact h.2.1
  · intro k hk
    exact hperm.mem_iff.2 (h.2.2.2.2.1 k hk)
  · intro k hk
    exact h.2.2.2.2.2 k (hperm.mem_iff.1 hk)

theorem clear_wf (c : LRUCache Key Value) (h : WF c) : WF c.clear := by
  refine ⟨h.1, ?_, ?_, ?_, ?_, ?_⟩ <;> simp [LRUCache.clear]

theorem get_wf (c : LRUCache Key Value) (k : Key) (h : WF c) : WF (c.get k).2 := by
  unfold LRUCache.get
  by_cases hk : k ∈ c.lookup_
  · rw [if_pos hk]
    obtain ⟨v, l₁, l₂, hdec, hnot⟩ :=
      exists_key_decomp k c.items_ ((h.mem_iff k).1 hk)
    have hmv : move_to_front k c.items_ = (k, v) :: (l₁ ++ l₂) := by
      rw [hdec]
      exact move_to_front_key_append hnot v l₂
    refine wf_replace_items c _ ?_ h
    rw [hmv, hdec]
    simp only [List.map_append, List.map_cons]
    exact List.perm_middle.symm
  · rw [if_neg hk]
    exact h

theorem erase_wf (c : LRUCache Key Value) (k : Key) (h : WF c) :
    WF (c.erase k).2 := by
  unfold LRUCache.erase
  by_cases hk : k ∈ c.lookup_
  · rw [if_pos hk]
    obtain ⟨v, l₁, l₂, hdec, hnot⟩ :=
      exists_key_decomp k c.items_ ((h.mem_iff k).1 hk)
    have her : c.items_.eraseP (fun q => decide (q.1 = k)) = l₁ ++ l₂ := by
      rw [hdec]
      exact eraseP_key_append hnot v l₂
    have hnd : (c.items_.map Prod.fst).Nodup := h.2.2.1
    rw [hdec] at hnd
    refine ⟨h.1, ?_, ?_, ?_, ?_, ?_⟩
    · show (c.items_.eraseP (fun q => decide (q.1 = k))).length ≤ c.capacity_
      have hsub := List.eraseP_sublist (p := fun q => decide ((q : Key × Value).1 = k)) c.items_
      have := hsub.length_le
      have h2 := h.2.1
      omega
    · show ((c.items_.eraseP (fun q => decide (q.1 = k))).map Prod.fst).Nodup
      rw [her]
      have hsub : List.Sublist (l₁ ++ l₂) (l₁ ++ (k, v) :: l₂) :=
        List.Sublist.append_left (List.sublist_cons_self _ _) l₁
      exact (List.Sublist.map Prod.fst hsub).nodup hnd
    · exact (h.2.2.2.1).erase k
    · intro k' hk'
      rw [her]
      have hk'2 := (List.Nodup.mem_erase_iff h.2.2.2.1).1 hk'
      rw [mem_map_fst_of_decomp hnd k']
      refine ⟨hk'2.1, ?_⟩
      rw [← hdec]
      exact (h.mem_iff k').1 hk'2.2
    · intro k' hk'
      rw [her] at hk'
      rw [mem_map_fst_of_decomp hnd k'] at hk'
      rw [List.Nodup.mem_erase_iff h.2.2.2.1]
      refine ⟨hk'.1, ?_⟩
      rw [h.mem_iff k', hdec]
      exact hk'.2
  · rw [if_neg hk]
    exact h

theorem put_wf (c : LRUCache Key Value) (k : Key) (v : Value) (h : WF c) :
    WF (c.put k v) := by
  by_cases hk : k ∈ c.lookup_
  · obtain ⟨v₀, l₁, l₂, hdec, hnot, heq⟩ := put_present c k v h hk
    rw [heq]
    refine wf_replace_items c _ ?_ h
    rw [hdec]
    simp only [List.map_append, List.map_cons]
    exact List.perm_middle.symm
  · have hkm : k ∉ c.items_.map Prod.fst := fun hkk => hk ((h.mem_iff k).2 hkk)
    by_cases hge : c.capacity_ ≤ c.items_.length
    · have hlen : c.items_.length = c.capacity_ := le_antisymm h.2.1 hge
      have hpos : 1 ≤ c.capacity_ := h.1
      have hne : c.items_ ≠ [] := by
        intro h0
        rw [h0] at hlen
        simp at hlen
        omega
      obtain ⟨lru, hlast, heq⟩ := put_absent_at_cap c k v hk hge hne
      rw [heq]
      have hdecomp : c.items_ = c.items_.dropLast ++ [lru] := getLast?_decomp hlast
      have hnd : (c.items_.map Prod.fst).Nodup := h.2.2.1
      have hnd' : ((c.items_.dropLast ++ (lru.1, lru.2) :: ([] : List (Key × Value))).map
          Prod.fst).Nodup := by
        rw [← hdecomp.symm] at hnd
        simpa using hnd
      have hmemd := fun k' => mem_map_fst_of_decomp hnd' k'
      refine ⟨h.1, ?_, ?_, ?_, ?_, ?_⟩
      · show ((k, v) :: c.items_.dropLast).length ≤ c.capacity_
        simp only [List.length_cons, List.length_dropLast]
        omega
      · show (((k, v) :: c.items_.dropLast).map Prod.fst).Nodup
        simp only [List.map_cons, List.nodup_cons]
        constructor
        · intro hkk
          exact hkm (List.Sublist.mem hkk
            (List.Sublist.map Prod.fst (List.dropLast_sublist c.items_)))
        · exact (List.Sublist.map Prod.fst (List.dropLast_sublist c.items_)).nodup hnd
      · show (k :: c.lookup_.erase lru.1).Nodup
        rw [List.nodup_cons]
        refine ⟨fun hkk => hk (List.Sublist.mem hkk (List.erase_sublist lru.1 c.lookup_)), ?_⟩
        exact (h.2.2.2.1).erase lru.1
      · intro k' hk'
        show k' ∈ ((k, v) :: c.items_.dropLast).map Prod.fst
        simp only [List.map_cons, List.mem_cons]
        rcases List.mem_cons.1 hk' with h0 | h0
        · exact Or.inl h0
        · have h0' := (List.Nodup.mem_erase_iff h.2.2.2.1).1 h0
          refine Or.inr ?_
          have hmem : k' ∈ (c.items_.dropLast ++ ([] : List (Key × Value))).map Prod.fst := by
            rw [hmemd k']
            refine ⟨h0'.1, ?_⟩
            have hh := (h.mem_iff k').1 h0'.2
            rw [hdecomp] at hh
            simpa using hh
          simpa using hmem
      · intro k' hk'
        show k' ∈ k :: c.lookup_.erase lru.1
        simp only [List.map_cons, List.mem_cons] at hk'
        rw [List.mem_cons]
        rcases hk' with h0 | h0
        · exact Or.inl h0
        · refine Or.inr ?_
          have h0' : k' ∈ (c.items_.dropLast ++ ([] : List (Key × Value))).map Prod.fst := by
            simpa using h0
          rw [hmemd k'] at h0'
          rw [List.Nodup.mem_erase_iff h.2.2.2.1]
          refine ⟨h0'.1, ?_⟩
          rw [h.mem_iff k', hdecomp]
          simpa using h0'.2
    · rw [put_absent_spare c k v hk (by omega)]
      refine ⟨h.1, ?_, ?_, ?_, ?_, ?_⟩
      · show ((k, v) :: c.items_).length ≤ c.capacity_
        simp only [List.length_cons]
        omega
      · show (((k, v) :: c.items_).map Prod.fst).Nodup
        simp only [List.map_cons, List.nodup_cons]
        exact ⟨hkm, h.2.2.1⟩
      · show (k :: c.lookup_).Nodup
        rw [List.nodup_cons]
        exact ⟨hk, h.2.2.2.1⟩
      · intro k' hk'
        show k' ∈ ((k, v) :: c.items_).map Prod.fst
        simp only [List.map_cons, List.mem_cons]
        rcases List.mem_cons.1 hk' with h0 | h0
        · exact Or.inl h0
        · exact Or.inr ((h.mem_iff k').1 h0)
      · intro k' hk'
        show k' ∈ k :: c.lookup_
        simp only [List.map_cons, List.mem_cons] at hk'
        rw [List.mem_cons]
        rcases hk' with h0 | h0
        · exact Or.inl h0
        · exact Or.inr ((h.mem_iff k').2 h0)

theorem step_wf (c : LRUCache Key Value) (op : Op Key Value) (h : WF c) :
    WF (step c op) := by
  cases op with
  | putOp k v => exact put_wf c k v h
  | getOp k => exact get_wf c k h
  | eraseOp k => exact erase_wf c k h
  | clearOp => exact clear_wf c h
  | containsOp k => exact h

theorem run_wf (ops : List (Op Key Value)) :
    ∀ c : LRUCache Key Value, WF c → WF (run c ops) := by
  induction ops with
  | nil => intro c h; exact h
  | cons op rest ih =>
    intro c h
    exact ih (step c op) (step_wf c op h)

theorem new_ok {cap : Nat} {c : LRUCache Key Value}
    (h : LRUCache.new cap = Except.ok c) :
    1 ≤ cap ∧ c = { capacity_ := cap, items_ := [], lookup_ := [] } := by
  unfold LRUCache.new at h
  by_cases h0 : cap = 0
  · rw [if_pos h0] at h
    exact absurd h (by simp)
  · rw [if_neg h0] at h
    exact ⟨by omega, (Except.ok.inj h).symm⟩

theorem new_wf {cap : Nat} {c : LRUCache Key Value}
    (h : LRUCache.new cap = Except.ok c) : WF c := by
  obtain ⟨h1, h2⟩ := new_ok h
  subst h2
  exact ⟨h1, by simp, by simp, by simp, by simp, by simp⟩

/-! Capacity is never written after construction. -/

theorem put_capacity (c : LRUCache Key Value) (k : Key) (v : Value) :
    (c.put k v).capacity_ = c.capacity_ := by
  unfold LRUCache.put
  by_cases hk : k ∈ c.lookup_
  · rw [if_pos hk]
  · rw [if_neg hk]
    by_cases hge : c.capacity_ ≤ c.items_.length
    · rw [if_pos hge]
      cases c.items_.getLast? <;> rfl
    · rw [if_neg hge]

theorem get_capacity (c : LRUCache Key Value) (k : Key) :
    ((c.get k).2).capacity_ = c.capacity_ := by
  unfold LRUCache.get
  by_cases hk : k ∈ c.lookup_
  · rw [if_pos hk]
  · rw [if_neg hk]

theorem erase_capacity (c : LRUCache Key Value) (k : Key) :
    ((c.erase k).2).capacity_ = c.capacity_ := by
  unfold LRUCache.erase
  by_cases hk : k ∈ c.lookup_
  · rw [if_pos hk]
  · rw [if_neg hk]

theorem step_capacity (c : LRUCache Key Value) (op : Op Key Value) :
    (step c op).capacity_ = c.capacity_ := by
  cases op with
  | putOp k v => exact put_capacity c k v
  | getOp k => exact get_capacity c k
  | eraseOp k => exact erase_capacity c k
  | clearOp => rfl
  | containsOp k => rfl

theorem run_capacity (ops : List (Op Key Value)) :
    ∀ c : LRUCache Key Value, (run c ops).capacity_ = c.capacity_ := by
  induction ops with
  | nil => intro c; rfl
  | cons op rest ih =>
    intro c
    show (run (step c op) rest).capacity_ = c.capacity_
    rw [ih (step c op), step_capacity]

/-! Characterization of `get`. -/

theorem get_absent (c : LRUCache Key Value) (k : Key) (hk : k ∉ c.lookup_) :
    c.get k = (none, c) := by
  unfold LRUCache.get
  rw [if_neg hk]

theorem get_present (c : LRUCache Key Value) (k : Key) (hWF : WF c)
    (hk : k ∈ c.lookup_) :
    ∃ v l₁ l₂, c.items_ = l₁ ++ (k, v) :: l₂ ∧ k ∉ l₁.map Prod.fst ∧
      c.get k = (some v, { c with items_ := (k, v) :: (l₁ ++ l₂) }) := by
  obtain ⟨v, l₁, l₂, hdec, hnot⟩ :=
    exists_key_decomp k c.items_ ((hWF.mem_iff k).1 hk)
  refine ⟨v, l₁, l₂, hdec, hnot, ?_⟩
  unfold LRUCache.get
  rw [if_pos hk]
  show ((move_to_front k c.items_).head?.map Prod.snd,
      { c with items_ := move_to_front k c.items_ }) = _
  rw [hdec, move_to_front_key_append hnot v l₂]
  simp

/-- The entry just written by `put` sits at the front of the recency list. -/
theorem put_items_head (c : LRUCache Key Value) (k : Key) (v : Value)
    (hWF : WF c) :
    ∃ rest, (c.put k v).items_ = (k, v) :: rest := by
  by_cases hk : k ∈ c.lookup_
  · obtain ⟨v₀, l₁, l₂, _, _, heq⟩ := put_present c k v hWF hk
    exact ⟨l₁ ++ l₂, by rw [heq]⟩
  · by_cases hge : c.capacity_ ≤ c.items_.length
    · have hlen : c.items_.length = c.capacity_ := le_antisymm hWF.2.1 hge
      have hne : c.items_ ≠ [] := by
        intro h0
        rw [h0] at hlen
        have := hWF.1
        simp at hlen
        omega
      obtain ⟨lru, _, heq⟩ := put_absent_at_cap c k v hk hge hne
      exact ⟨c.items_.dropLast, by rw [heq]⟩
    · exact ⟨c.items_, by rw [put_absent_spare c k v hk (by omega)]⟩

theorem put_mem_lookup (c : LRUCache Key Value) (k : Key) (v : Value) :
    k ∈ (c.put k v).lookup_ := by
  unfold LRUCache.put
  by_cases hk : k ∈ c.lookup_
  · rw [if_pos hk]
    exact hk
  · rw [if_neg hk]
    by_cases hge : c.capacity_ ≤ c.items_.length
    · rw [if_pos hge]
      cases c.items_.getLast? <;> exact List.mem_cons_self _ _
    · rw [if_neg hge]
      exact List.mem_cons_self _ _

theorem move_to_front_cons_self (k : Key) (v : Value) (tail : List (Key × Value)) :
    move_to_front k ((k, v) :: tail) = (k, v) :: tail := by
  unfold move_to_front findNode
  simp [List.find?_cons, List.eraseP_cons]

/-! Folding `put` over fresh keys: the recency list is the reversed insertion
order truncated to the capacity. -/

theorem take_append_take {α : Type} (n : Nat) (a b : List α) :
    List.take n (a ++ List.take n b) = List.take n (a ++ b) := by
  rw [List.take_append_eq_append_take, List.take_append_eq_append_take,
    List.take_take]
  have hmin : (n - a.length) ⊓ n = n - a.length := by
    apply min_eq_left
    omega
  rw [hmin]

theorem putAll_spec (kvs : List (Key × Value)) :
    ∀ c : LRUCache Key Value, WF c → (kvs.map Prod.fst).Nodup →
      (∀ p ∈ kvs, p.1 ∉ c.lookup_) →
      (putAll c kvs).items_ = List.take c.capacity_ (kvs.reverse ++ c.items_) ∧
      (putAll c kvs).capacity_ = c.capacity_ ∧ WF (putAll c kvs) := by
  induction kvs with
  | nil =>
    intro c h _ _
    exact ⟨(List.take_of_length_le h.2.1).symm, rfl, h⟩
  | cons p rest ih =>
    intro c h hnd habs
    have hp : p.1 ∉ c.lookup_ := habs p (List.mem_cons_self p rest)
    have h1 : (c.put p.1 p.2).items_ =
        List.take c.capacity_ ((p.1, p.2) :: c.items_) :=
      put_absent_items c p.1 p.2 h hp
    have hwf' : WF (c.put p.1 p.2) := put_wf c p.1 p.2 h
    have hcapeq : (c.put p.1 p.2).capacity_ = c.capacity_ := put_capacity c p.1 p.2
    have hndr : (rest.map Prod.fst).Nodup := by
      simp only [List.map_cons, List.nodup_cons] at hnd
      exact hnd.2
    have habs' : ∀ q ∈ rest, q.1 ∉ (c.put p.1 p.2).lookup_ := by
      intro q hq hql
      have hqm : q.1 ∈ (c.put p.1 p.2).items_.map Prod.fst :=
        (hwf'.mem_iff q.1).1 hql
      rw [h1] at hqm
      have hq2 : q.1 ∈ ((p.1, p.2) :: c.items_).map Prod.fst :=
        List.Sublist.mem hqm (List.Sublist.map Prod.fst (List.take_sublist _ _))
      simp only [List.map_cons, List.mem_cons] at hq2
      rcases hq2 with h0 | h0
      · simp only [List.map_cons, List.nodup_cons] at hnd
        exact hnd.1 (h0 ▸ List.mem_map_of_mem Prod.fst hq)
      · exact habs q (List.mem_cons_of_mem p hq) ((h.mem_iff q.1).2 h0)
    obtain ⟨hitems, hcap, hwf2⟩ := ih (c.put p.1 p.2) hwf' hndr habs'
    refine ⟨?_, ?_, hwf2⟩
    case refine_2 =>
      show (putAll (c.put p.1 p.2) rest).capacity_ = c.capacity_
      rw [hcap, hcapeq]
    show (putAll (c.put p.1 p.2) rest).items_ = _
    rw [hitems, hcapeq, h1, List.reverse_cons, List.append_assoc]
    show List.take c.capacity_
        (rest.reverse ++ List.take c.capacity_ ((p.1, p.2) :: c.items_)) = _
    rw [take_append_take]
    simp

omit [DecidableEq Key] in
theorem map_fst_pair (vf : Key → Value) (l : List Key) :
    (l.map fun k => (k, vf k)).map Prod.fst = l := by
  induction l with
  | nil => rfl
  | cons a t ih => simp [ih]

omit [DecidableEq Key] in
theorem not_mem_of_decomp_nodup {k : Key} {l₁ l₂ : List (Key × Value)} {v : Value}
    (hnd : ((l₁ ++ (k, v) :: l₂).map Prod.fst).Nodup) :
    k ∉ l₁.map Prod.fst ∧ k ∉ l₂.map Prod.fst := by
  have hperm : ((l₁ ++ (k, v) :: l₂).map Prod.fst).Perm
      (k :: (l₁ ++ l₂).map Prod.fst) := by
    simp only [List.map_append, List.map_cons]
    exact List.perm_middle
  have hnd' := hperm.nodup_iff.1 hnd
  have hkn : k ∉ (l₁ ++ l₂).map Prod.fst := (List.nodup_cons.1 hnd').1
  simp only [List.map_append, List.mem_append, not_or] at hkn
  exact hkn

/-! The claims. -/

/-- Claim C2: `get` on an absent key returns the empty optional and leaves
the state entirely unchanged; on a present key it moves that key's entry to
the front of the recency list and returns a copy of the value stored for
the key. -/
theorem lookup_spec :
    ∀ (c : LRUCache Key Value) (k : Key),
      (c.contains k = false → c.get k = (none, c)) ∧
      (WF c → c.contains k = true →
        ∃ v l₁ l₂, c.items_ = l₁ ++ (k, v) :: l₂ ∧
          c.get k = (some v, { c with items_ := (k, v) :: (l₁ ++ l₂) })) := by
  intro c k
  constructor
  · intro h
    have hk : k ∉ c.lookup_ := by simpa [LRUCache.contains] using h
    exact get_absent c k hk
  · intro hWF h
    have hk : k ∈ c.lookup_ := by simpa [LRUCache.contains] using h
    obtain ⟨v, l₁, l₂, hdec, _, heq⟩ := get_present c k hWF hk
    exact ⟨v, l₁, l₂, hdec, heq⟩

theorem lookup_spec_witness :
    ((⟨2, [(1, 10), (2, 20)], [1, 2]⟩ : LRUCache Nat Nat).get 3 =
      (none, ⟨2, [(1, 10), (2, 20)], [1, 2]⟩)) ∧
    ∃ v l₁ l₂, ([(1, 10), (2, 20)] : List (Nat × Nat)) = l₁ ++ (2, v) :: l₂ ∧
      (⟨2, [(1, 10), (2, 20)], [1, 2]⟩ : LRUCache Nat Nat).get 2 =
        (some v, { (⟨2, [(1, 10), (2, 20)], [1, 2]⟩ : LRUCache Nat Nat) with
                     items_ := (2, v) :: (l₁ ++ l₂) }) := by
  constructor
  · exact (lookup_spec (⟨2, [(1, 10), (2, 20)], [1, 2]⟩ : LRUCache Nat Nat) 3).1
      (by decide)
  · exact (lookup_spec (⟨2, [(1, 10), (2, 20)], [1, 2]⟩ : LRUCache Nat Nat) 2).2
      (by decide) (by decide)

/-- Claim C3: along every operation sequence from a freshly constructed
cache, `size() ≤ capacity()` holds, and `capacity()` always returns the
construction argument, which is at least 1 and never changes.  (Every
intermediate state of a sequence is the final state of a prefix, which the
universal quantifier over `ops` covers.) -/
theorem capacity_invariant :
    ∀ (cap : Nat) (c0 : LRUCache Key Value) (ops : List (Op Key Value)),
      LRUCache.new cap = Except.ok c0 →
      (run c0 ops).size ≤ (run c0 ops).capacity ∧
      (run c0 ops).capacity = cap ∧ 1 ≤ cap := by
  intro cap c0 ops h
  have hwf := run_wf ops c0 (new_wf h)
  obtain ⟨h1, h2⟩ := new_ok h
  refine ⟨hwf.2.1, ?_, h1⟩
  show (run c0 ops).capacity_ = cap
  rw [run_capacity ops c0, h2]

theorem capacity_invariant_witness :
    (run (⟨3, [], []⟩ : LRUCache Nat Nat)
        [Op.putOp 1 10, Op.putOp 2 20, Op.putOp 3 30, Op.putOp 4 40,
         Op.getOp 1, Op.eraseOp 2, Op.containsOp 3, Op.clearOp]).size ≤
      (run (⟨3, [], []⟩ : LRUCache Nat Nat)
        [Op.putOp 1 10, Op.putOp 2 20, Op.putOp 3 30, Op.putOp 4 40,
         Op.getOp 1, Op.eraseOp 2, Op.containsOp 3, Op.clearOp]).capacity ∧
    (run (⟨3, [], []⟩ : LRUCache Nat Nat)
        [Op.putOp 1 10, Op.putOp 2 20, Op.putOp 3 30, Op.putOp 4 40,
         Op.getOp 1, Op.eraseOp 2, Op.containsOp 3, Op.clearOp]).capacity = 3 ∧
    1 ≤ 3 :=
  capacity_invariant 3 ⟨3, [], []⟩
    [Op.putOp 1 10, Op.putOp 2 20, Op.putOp 3 30, Op.putOp 4 40,
     Op.getOp 1, Op.eraseOp 2, Op.containsOp 3, Op.clearOp] rfl

/-- Claim C4: `contains k` is true exactly when a `get` of `k` would return
a value, and the bijection between the index key set and the recency-list
key set (each with no duplicates) is preserved by every operation. -/
theorem contains_get_bijection :
    (∀ (c : LRUCache Key Value) (k : Key), WF c →
      (c.contains k = true ↔ ((c.get k).1).isSome = true)) ∧
    (∀ (c : LRUCache Key Value) (op : Op Key Value), WF c →
      (step c op).lookup_.Nodup ∧ ((step c op).items_.map Prod.fst).Nodup ∧
      (∀ k, k ∈ (step c op).lookup_ ↔ k ∈ (step c op).items_.map Prod.fst)) := by
  constructor
  · intro c k hWF
    by_cases hk : k ∈ c.lookup_
    · obtain ⟨v, l₁, l₂, _, _, heq⟩ := get_present c k hWF hk
      rw [heq]
      simp [LRUCache.contains, hk]
    · rw [get_absent c k hk]
      simp [LRUCache.contains, hk]
  · intro c op hWF
    have h := step_wf c op hWF
    exact ⟨h.2.2.2.1, h.2.2.1, fun k => h.mem_iff k⟩

theorem contains_get_bijection_witness :
    ((⟨2, [(1, 10), (2, 20)], [1, 2]⟩ : LRUCache Nat Nat).contains 1 = true ↔
      (((⟨2, [(1, 10), (2, 20)], [1, 2]⟩ : LRUCache Nat Nat).get 1).1).isSome = true) ∧
    ((step (⟨2, [(1, 10), (2, 20)], [1, 2]⟩ : LRUCache Nat Nat)
        (Op.putOp 3 30)).lookup_.Nodup ∧
      ((step (⟨2, [(1, 10), (2, 20)], [1, 2]⟩ : LRUCache Nat Nat)
          (Op.putOp 3 30)).items_.map Prod.fst).Nodup ∧
      (∀ k, k ∈ (step (⟨2, [(1, 10), (2, 20)], [1, 2]⟩ : LRUCache Nat Nat)
          (Op.putOp 3 30)).lookup_ ↔
        k ∈ (step (⟨2, [(1, 10), (2, 20)], [1, 2]⟩ : LRUCache Nat Nat)
          (Op.putOp 3 30)).items_.map Prod.fst)) :=
  ⟨(@contains_get_bijection Nat Nat _).1 ⟨2, [(1, 10), (2, 20)], [1, 2]⟩ 1
      (by decide),
    (@contains_get_bijection Nat Nat _).2 ⟨2, [(1, 10), (2, 20)], [1, 2]⟩
      (Op.putOp 3 30) (by decide)⟩

/-- Claim C5: `put` on an already-present key replaces the stored value,
relinks the entry to the front of the recency list, leaves the size
unchanged and evicts nothing (every key's presence is preserved), even at
capacity. -/
theorem update_spec :
    ∀ (c : LRUCache Key Value) (k : Key) (v : Value),
      WF c → c.contains k = true →
      ∃ v₀ l₁ l₂, c.items_ = l₁ ++ (k, v₀) :: l₂ ∧
        c.put k v = { c with items_ := (k, v) :: (l₁ ++ l₂) } ∧
        (c.put k v).size = c.size ∧
        (∀ k', (c.put k v).contains k' = c.contains k') := by
  intro c k v hWF h
  have hk : k ∈ c.lookup_ := by simpa [LRUCache.contains] using h
  obtain ⟨v₀, l₁, l₂, hdec, hnot, heq⟩ := put_present c k v hWF hk
  refine ⟨v₀, l₁, l₂, hdec, heq, ?_, ?_⟩
  · show (c.put k v).items_.length = c.items_.length
    rw [heq]
    show ((k, v) :: (l₁ ++ l₂)).length = c.items_.length
    rw [hdec]
    simp
    omega
  · intro k'
    rw [heq]
    rfl

theorem update_spec_witness :
    ∃ v₀ l₁ l₂, ([(1, 10), (2, 20)] : List (Nat × Nat)) = l₁ ++ (1, v₀) :: l₂ ∧
      (⟨2, [(1, 10), (2, 20)], [1, 2]⟩ : LRUCache Nat Nat).put 1 99 =
        { (⟨2, [(1, 10), (2, 20)], [1, 2]⟩ : LRUCache Nat Nat) with
            items_ := (1, 99) :: (l₁ ++ l₂) } ∧
      ((⟨2, [(1, 10), (2, 20)], [1, 2]⟩ : LRUCache Nat Nat).put 1 99).size =
        (⟨2, [(1, 10), (2, 20)], [1, 2]⟩ : LRUCache Nat Nat).size ∧
      (∀ k', ((⟨2, [(1, 10), (2, 20)], [1, 2]⟩ : LRUCache Nat Nat).put 1 99).contains k' =
        (⟨2, [(1, 10), (2, 20)], [1, 2]⟩ : LRUCache Nat Nat).contains k') :=
  update_spec (⟨2, [(1, 10), (2, 20)], [1, 2]⟩ : LRUCache Nat Nat) 1 99
    (by decide) (by decide)

/-- Claim C6: constructing with capacity 0 fails with the invalid-argument
error and produces no instance; constructing with any capacity ≥ 1 yields
an empty store (`size = 0`, `empty = true`) whose capacity equals the
argument.  (`std::size_t` is unsigned, so 0 is the only non-positive
representable capacity.) -/
theorem construction_spec :
    (LRUCache.new 0 =
      (Except.error "lru cache capacity must be greater than 0" :
        Except String (LRUCache Key Value))) ∧
    (∀ cap : Nat, 1 ≤ cap → ∃ c : LRUCache Key Value,
      LRUCache.new cap = Except.ok c ∧ c.size = 0 ∧ c.empty = true ∧
      c.capacity = cap) := by
  constructor
  · unfold LRUCache.new
    rw [if_pos rfl]
  · intro cap hcap
    refine ⟨{ capacity_ := cap, items_ := [], lookup_ := [] }, ?_, rfl, rfl, rfl⟩
    unfold LRUCache.new
    rw [if_neg (by omega)]

theorem construction_spec_witness :
    (LRUCache.new 0 =
      (Except.error "lru cache capacity must be greater than 0" :
        Except String (LRUCache Nat Nat))) ∧
    ∃ c : LRUCache Nat Nat, LRUCache.new 3 = Except.ok c ∧ c.size = 0 ∧
      c.empty = true ∧ c.capacity = 3 :=
  ⟨(@construction_spec Nat Nat _).1,
    (@construction_spec Nat Nat _).2 3 (by decide)⟩

/-- Claim C7: `erase` returns true exactly when the key was present; on an
absent key it returns false with the state unchanged; on a present key it
removes exactly that key's entry from both structures, leaving the relative
order of all other entries intact. -/
theorem remove_spec :
    ∀ (c : LRUCache Key Value) (k : Key),
      (c.contains k = false → c.erase k = (false, c)) ∧
      (WF c → c.contains k = true →
        ∃ v l₁ l₂, c.items_ = l₁ ++ (k, v) :: l₂ ∧
          c.erase k = (true, { c with items_ := l₁ ++ l₂,
                                      lookup_ := c.lookup_.erase k }) ∧
          (c.erase k).2.contains k = false ∧
          (∀ k', k' ≠ k → (c.erase k).2.contains k' = c.contains k')) := by
  intro c k
  constructor
  · intro h
    have hk : k ∉ c.lookup_ := by simpa [LRUCache.contains] using h
    unfold LRUCache.erase
    rw [if_neg hk]
  · intro hWF h
    have hk : k ∈ c.lookup_ := by simpa [LRUCache.contains] using h
    obtain ⟨v, l₁, l₂, hdec, hnot⟩ :=
      exists_key_decomp k c.items_ ((hWF.mem_iff k).1 hk)
    have heq : c.erase k = (true, { c with
        items_ := l₁ ++ l₂, lookup_ := c.lookup_.erase k }) := by
      unfold LRUCache.erase
      rw [if_pos hk, hdec, eraseP_key_append hnot v l₂]
    refine ⟨v, l₁, l₂, hdec, heq, ?_, ?_⟩
    · rw [heq]
      show decide (k ∈ c.lookup_.erase k) = false
      simp [List.Nodup.mem_erase_iff hWF.2.2.2.1]
    · intro k' hne
      rw [heq]
      show decide (k' ∈ c.lookup_.erase k) = decide (k' ∈ c.lookup_)
      simp [List.mem_erase_of_ne hne]

theorem remove_spec_witness :
    ((⟨3, [(1, 10), (2, 20), (3, 30)], [1, 2, 3]⟩ : LRUCache Nat Nat).erase 9 =
      (false, ⟨3, [(1, 10), (2, 20), (3, 30)], [1, 2, 3]⟩)) ∧
    ∃ v l₁ l₂, ([(1, 10), (2, 20), (3, 30)] : List (Nat × Nat)) =
        l₁ ++ (2, v) :: l₂ ∧
      (⟨3, [(1, 10), (2, 20), (3, 30)], [1, 2, 3]⟩ : LRUCache Nat Nat).erase 2 =
        (true, { (⟨3, [(1, 10), (2, 20), (3, 30)], [1, 2, 3]⟩ : LRUCache Nat Nat) with
                   items_ := l₁ ++ l₂,
                   lookup_ := ([1, 2, 3] : List Nat).erase 2 }) ∧
      ((⟨3, [(1, 10), (2, 20), (3, 30)], [1, 2, 3]⟩ :
          LRUCache Nat Nat).erase 2).2.contains 2 = false ∧
      (∀ k', k' ≠ 2 →
        ((⟨3, [(1, 10), (2, 20), (3, 30)], [1, 2, 3]⟩ :
            LRUCache Nat Nat).erase 2).2.contains k' =
          (⟨3, [(1, 10), (2, 20), (3, 30)], [1, 2, 3]⟩ :
            LRUCache Nat Nat).contains k') :=
  ⟨(remove_spec (⟨3, [(1, 10), (2, 20), (3, 30)], [1, 2, 3]⟩ : LRUCache Nat Nat)
      9).1 (by decide),
    (remove_spec (⟨3, [(1, 10), (2, 20), (3, 30)], [1, 2, 3]⟩ : LRUCache Nat Nat)
      2).2 (by decide) (by decide)⟩

/-- Claim C8: after `clear()` the store is empty — size 0, `empty` true,
every key (in particular every previously-present one) looks up as absent —
and the capacity is unchanged. -/
theorem clear_resets :
    ∀ (c : LRUCache Key Value) (k : Key),
      (c.clear).size = 0 ∧ (c.clear).empty = true ∧
      ((c.clear).get k).1 = none ∧ (c.clear).capacity = c.capacity := by
  intro c k
  refine ⟨rfl, rfl, ?_, rfl⟩
  have hk : k ∉ (c.clear).lookup_ := by
    show k ∉ ([] : List Key)
    simp
  rw [get_absent _ _ hk]

/-- Claim C9: `contains` is a pure query: it answers exactly membership of
the key in the index and, as an operation, leaves the cache state (recency
order included) entirely unchanged — unlike `get`, which promotes on a
hit. -/
theorem contains_pure :
    ∀ (c : LRUCache Key Value) (k : Key),
      (c.contains k = true ↔ k ∈ c.lookup_) ∧
      step c (Op.containsOp k) = c := by
  intro c k
  exact ⟨by simp [LRUCache.contains], rfl⟩

/-- Claim C10: a `get` of `k` immediately after `put k v` returns `v`, in
every branch of `put` (update, direct insert, or evicting insert). -/
theorem put_get_roundtrip :
    ∀ (c : LRUCache Key Value) (k : Key) (v : Value),
      WF c → ((c.put k v).get k).1 = some v := by
  intro c k v hWF
  have hk : k ∈ (c.put k v).lookup_ := put_mem_lookup c k v
  obtain ⟨rest, hhead⟩ := put_items_head c k v hWF
  unfold LRUCache.get
  rw [if_pos hk]
  show ((move_to_front k (c.put k v).items_).head?.map Prod.snd) = some v
  rw [hhead, move_to_front_cons_self]
  simp

theorem put_get_roundtrip_witness :
    (((⟨2, [(1, 10), (2, 20)], [1, 2]⟩ : LRUCache Nat Nat).put 1 99).get 1).1 =
        some 99 ∧
    (((⟨2, [(1, 10)], [1]⟩ : LRUCache Nat Nat).put 2 20).get 2).1 = some 20 ∧
    (((⟨1, [(1, 10)], [1]⟩ : LRUCache Nat Nat).put 2 20).get 2).1 = some 20 :=
  ⟨put_get_roundtrip (⟨2, [(1, 10), (2, 20)], [1, 2]⟩ : LRUCache Nat Nat) 1 99
      (by decide),
    put_get_roundtrip (⟨2, [(1, 10)], [1]⟩ : LRUCache Nat Nat) 2 20 (by decide),
    put_get_roundtrip (⟨1, [(1, 10)], [1]⟩ : LRUCache Nat Nat) 2 20 (by decide)⟩

/-- Claim C1: on a well-formed state at capacity with `k` absent,
`put k v` evicts exactly the entry at the back of the recency list, removing
it from both the index and the list, and pushes `(k, v)` at the front; in
particular inserting `capacity + 1` distinct keys into a fresh cache evicts
exactly the first-inserted key, and a `get` of the oldest key immediately
before the overflowing insert saves it — the now-least-recently-touched
entry (the back of the list after the promotion) is evicted instead. -/
theorem lru_eviction :
    (∀ (c : LRUCache Key Value) (k : Key) (v : Value),
      WF c → c.size = c.capacity → c.contains k = false →
      ∃ lk lv, c.items_.getLast? = some (lk, lv) ∧
        c.put k v = { c with items_ := (k, v) :: c.items_.dropLast,
                             lookup_ := k :: c.lookup_.erase lk } ∧
        (c.put k v).contains lk = false ∧
        (c.put k v).size = c.capacity) ∧
    (∀ (cap : Nat) (c0 : LRUCache Key Value) (k0 : Key) (ks : List Key)
        (vf : Key → Value),
      LRUCache.new cap = Except.ok c0 → (k0 :: ks).Nodup → ks.length = cap →
      (putAll c0 ((k0 :: ks).map fun k => (k, vf k))).contains k0 = false ∧
      ∀ k ∈ ks,
        (putAll c0 ((k0 :: ks).map fun k => (k, vf k))).contains k = true) ∧
    (∀ (c : LRUCache Key Value) (k k' : Key) (kv v' : Value),
      WF c → c.size = c.capacity → 2 ≤ c.capacity →
      c.items_.getLast? = some (k, kv) → c.contains k' = false →
      ((c.get k).2.put k' v').contains k = true ∧
      ((c.get k).2.put k' v').contains k' = true ∧
      ∃ ek ev, (c.get k).2.items_.getLast? = some (ek, ev) ∧ ek ≠ k ∧
        ((c.get k).2.put k' v').contains ek = false) := by
  refine ⟨?_, ?_, ?_⟩
  · -- eviction of the back entry
    intro c k v hWF hsize hc
    have hk : k ∉ c.lookup_ := by simpa [LRUCache.contains] using hc
    have hlen : c.items_.length = c.capacity_ := hsize
    have hpos : 1 ≤ c.capacity_ := hWF.1
    have hne : c.items_ ≠ [] := by
      intro h0
      rw [h0] at hlen
      simp at hlen
      omega
    obtain ⟨lru, hlast, heq⟩ :=
      put_absent_at_cap c k v hk (le_of_eq hlen.symm) hne
    obtain ⟨lk, lv⟩ := lru
    refine ⟨lk, lv, hlast, heq, ?_, ?_⟩
    · rw [heq]
      show decide (lk ∈ k :: c.lookup_.erase lk) = false
      have hlkmem : lk ∈ c.items_.map Prod.fst := by
        rw [getLast?_decomp hlast]
        simp
      have hlkk : ¬(lk = k) := by
        intro h0
        exact hk ((hWF.mem_iff k).2 (h0 ▸ hlkmem))
      simp only [decide_eq_false_iff_not, List.mem_cons, not_or]
      refine ⟨hlkk, ?_⟩
      rw [List.Nodup.mem_erase_iff hWF.2.2.2.1]
      simp
    · rw [heq]
      show ((k, v) :: c.items_.dropLast).length = c.capacity_
      simp only [List.length_cons, List.length_dropLast]
      omega
  · -- capacity + 1 distinct inserts evict exactly the first key
    intro cap c0 k0 ks vf hnew hnd hlen
    have hwf0 : WF c0 := new_wf hnew
    obtain ⟨hcap1, hc0⟩ := new_ok hnew
    have hndk : ((((k0 :: ks).map fun k => (k, vf k)).map Prod.fst)).Nodup := by
      rw [map_fst_pair vf (k0 :: ks)]
      exact hnd
    have habs : ∀ p ∈ (k0 :: ks).map fun k => (k, vf k), p.1 ∉ c0.lookup_ := by
      intro p _
      rw [hc0]
      simp
    obtain ⟨hitems, _, hwff⟩ :=
      putAll_spec ((k0 :: ks).map fun k => (k, vf k)) c0 hwf0 hndk habs
    have hc0i : c0.items_ = [] := by rw [hc0]
    have hc0c : c0.capacity_ = cap := by rw [hc0]
    rw [hc0i, hc0c, List.append_nil] at hitems
    have hrev : ((k0 :: ks).map fun k => (k, vf k)).reverse =
        (ks.map fun k => (k, vf k)).reverse ++ [(k0, vf k0)] := by
      simp
    have hlen2 : ((ks.map fun k => (k, vf k)).reverse).length = cap := by
      simp [hlen]
    have hitems2 : (putAll c0 ((k0 :: ks).map fun k => (k, vf k))).items_ =
        (ks.map fun k => (k, vf k)).reverse := by
      rw [hitems, hrev, List.take_left' hlen2]
    have hkeys : (putAll c0 ((k0 :: ks).map fun k => (k, vf k))).items_.map
        Prod.fst = ks.reverse := by
      rw [hitems2, List.map_reverse, map_fst_pair vf ks]
    constructor
    · show decide (k0 ∈ (putAll c0 ((k0 :: ks).map fun k => (k, vf k))).lookup_) =
        false
      simp only [decide_eq_false_iff_not]
      intro hmem
      have hm2 := (hwff.mem_iff k0).1 hmem
      rw [hkeys, List.mem_reverse] at hm2
      exact (List.nodup_cons.1 hnd).1 hm2
    · intro k hkmem
      show decide (k ∈ (putAll c0 ((k0 :: ks).map fun k => (k, vf k))).lookup_) =
        true
      simp only [decide_eq_true_eq]
      refine (hwff.mem_iff k).2 ?_
      rw [hkeys, List.mem_reverse]
      exact hkmem
  · -- promoting the oldest key redirects the eviction
    intro c k k' kv v' hWF hsize hcap2 hlast hc'
    have hk' : k' ∉ c.lookup_ := by simpa [LRUCache.contains] using hc'
    have hlen : c.items_.length = c.capacity_ := hsize
    have hcap2' : 2 ≤ c.capacity_ := hcap2
    have hdecomp := getLast?_decomp hlast
    have hkm : k ∈ c.items_.map Prod.fst := by
      rw [hdecomp]
      simp
    have hk : k ∈ c.lookup_ := (hWF.mem_iff k).2 hkm
    have hnd : (c.items_.map Prod.fst).Nodup := hWF.2.2.1
    have hnd2 : ((c.items_.dropLast ++ (k, kv) ::
        ([] : List (Key × Value))).map Prod.fst).Nodup := by
      rw [hdecomp] at hnd
      exact hnd
    have hknotd : k ∉ c.items_.dropLast.map Prod.fst :=
      (not_mem_of_decomp_nodup hnd2).1
    have hget : (c.get k).2 = { c with items_ := (k, kv) :: c.items_.dropLast } := by
      unfold LRUCache.get
      rw [if_pos hk]
      show ({ c with items_ := move_to_front k c.items_ } : LRUCache Key Value) = _
      nth_rewrite 1 [hdecomp]
      rw [move_to_front_key_append hknotd kv []]
      simp
    have hc1items : (c.get k).2.items_ = (k, kv) :: c.items_.dropLast := by
      rw [hget]
    have hc1lookup : (c.get k).2.lookup_ = c.lookup_ := by rw [hget]
    have hc1cap : (c.get k).2.capacity_ = c.capacity_ := by rw [hget]
    have hdlen : c.items_.dropLast.length = c.capacity_ - 1 := by
      rw [List.length_dropLast, hlen]
    have hdne : c.items_.dropLast ≠ [] := by
      intro h0
      rw [h0] at hdlen
      simp at hdlen
      omega
    obtain ⟨e, helast⟩ := Option.isSome_iff_exists.1 (List.getLast?_isSome.2 hdne)
    obtain ⟨ek, ev⟩ := e
    have hddecomp := getLast?_decomp helast
    have hc1last : (c.get k).2.items_.getLast? = some (ek, ev) := by
      rw [hc1items]
      nth_rewrite 1 [hddecomp]
      rw [← List.cons_append]
      exact List.getLast?_concat _
    have hekd : ek ∈ c.items_.dropLast.map Prod.fst := by
      rw [hddecomp]
      simp
    have hekne : ek ≠ k := fun h0 => hknotd (h0 ▸ hekd)
    have hekmem : ek ∈ c.lookup_ := by
      refine (hWF.mem_iff ek).2 ?_
      exact List.Sublist.mem hekd
        (List.Sublist.map Prod.fst (List.dropLast_sublist c.items_))
    have hk'1 : k' ∉ (c.get k).2.lookup_ := by
      rw [hc1lookup]
      exact hk'
    have hge1 : (c.get k).2.capacity_ ≤ (c.get k).2.items_.length := by
      rw [hc1cap, hc1items]
      simp only [List.length_cons, List.length_dropLast]
      omega
    have hne1 : (c.get k).2.items_ ≠ [] := by
      rw [hc1items]
      simp
    obtain ⟨lru1, hlast1, heq1⟩ := put_absent_at_cap (c.get k).2 k' v' hk'1 hge1 hne1
    have hlru1 : lru1 = (ek, ev) := Option.some_inj.1 (hlast1.symm.trans hc1last)
    rw [hlru1] at heq1
    refine ⟨?_, ?_, ek, ev, hc1last, hekne, ?_⟩
    · rw [heq1]
      show decide (k ∈ k' :: (c.get k).2.lookup_.erase ek) = true
      simp only [decide_eq_true_eq, List.mem_cons]
      refine Or.inr ?_
      rw [hc1lookup, List.mem_erase_of_ne (fun h0 => hekne h0.symm)]
      exact hk
    · rw [heq1]
      show decide (k' ∈ k' :: (c.get k).2.lookup_.erase ek) = true
      simp
    · rw [heq1]
      show decide (ek ∈ k' :: (c.get k).2.lookup_.erase ek) = false
      simp only [decide_eq_false_iff_not, List.mem_cons, not_or]
      constructor
      · intro h0
        exact hk' (h0 ▸ hekmem)
      · rw [hc1lookup, List.Nodup.mem_erase_iff hWF.2.2.2.1]
        simp

theorem lru_eviction_witness :
    (∃ lk lv, ([(1, 10), (2, 20)] : List (Nat × Nat)).getLast? = some (lk, lv) ∧
      (⟨2, [(1, 10), (2, 20)], [1, 2]⟩ : LRUCache Nat Nat).put 3 30 =
        { (⟨2, [(1, 10), (2, 20)], [1, 2]⟩ : LRUCache Nat Nat) with
            items_ := (3, 30) :: ([(1, 10), (2, 20)] : List (Nat × Nat)).dropLast,
            lookup_ := 3 :: ([1, 2] : List Nat).erase lk } ∧
      ((⟨2, [(1, 10), (2, 20)], [1, 2]⟩ : LRUCache Nat Nat).put 3 30).contains lk
        = false ∧
      ((⟨2, [(1, 10), (2, 20)], [1, 2]⟩ : LRUCache Nat Nat).put 3 30).size =
        (⟨2, [(1, 10), (2, 20)], [1, 2]⟩ : LRUCache Nat Nat).capacity) ∧
    ((putAll (⟨2, [], []⟩ : LRUCache Nat Nat)
        (([1, 2, 3] : List Nat).map fun k => (k, 10 * k))).contains 1 = false ∧
      ∀ k ∈ ([2, 3] : List Nat),
        (putAll (⟨2, [], []⟩ : LRUCache Nat Nat)
          (([1, 2, 3] : List Nat).map fun k => (k, 10 * k))).contains k = true) ∧
    ((((⟨2, [(1, 10), (2, 20)], [1, 2]⟩ : LRUCache Nat Nat).get 2).2.put 3
        30).contains 2 = true ∧
      (((⟨2, [(1, 10), (2, 20)], [1, 2]⟩ : LRUCache Nat Nat).get 2).2.put 3
        30).contains 3 = true ∧
      ∃ ek ev, ((⟨2, [(1, 10), (2, 20)], [1, 2]⟩ :
          LRUCache Nat Nat).get 2).2.items_.getLast? = some (ek, ev) ∧ ek ≠ 2 ∧
        (((⟨2, [(1, 10), (2, 20)], [1, 2]⟩ : LRUCache Nat Nat).get 2).2.put 3
          30).contains ek = false) := by
  obtain ⟨h1, h2, h3⟩ := @lru_eviction Nat Nat _
  refine ⟨h1 ⟨2, [(1, 10), (2, 20)], [1, 2]⟩ 3 30 (by decide) (by decide)
      (by decide), ?_,
    h3 ⟨2, [(1, 10), (2, 20)], [1, 2]⟩ 2 3 20 30 (by decide) (by decide)
      (by decide) (by decide) (by decide)⟩
  exact h2 2 ⟨2, [], []⟩ 1 [2, 3] (fun k => 10 * k) rfl (by decide) (by decide)

end LRU
